import Mathlib

/-!
Shallow embedding of the AXAML document-outline parser
(`src/extension.ts`, class `AxamlDocumentSymbolProvider` and the free
function `findElementAtPosition`), together with theorems settling the
specification claims.  JS strings are modelled as `List Char`; the JS
`Map` is an insertion-ordered association list with overwrite-on-set;
the reference-mutated open-element stack is modelled as a stack of
frames, each carrying the element data plus its completed children
(a child is attached to its parent exactly when it is popped or when
the end of the document unwinds the stack, which yields the same final
forest as the in-place mutation of the TypeScript code).
-/

set_option linter.unusedVariables false
set_option synthInstance.maxSize 1000

namespace Axaml

abbrev Chars := List Char

def isWs (c : Char) : Bool := c.isWhitespace

/-- The single-quote character (code 39). -/
def squote : Char := Char.ofNat 39

/-- JS `String.prototype.trim`, modelled on character lists. -/
def jsTrim (l : Chars) : Chars :=
  ((l.dropWhile isWs).reverse.dropWhile isWs).reverse

/-- JS `String.prototype.includes` (substring test). -/
def jsIncludes (needle : Chars) : Chars → Bool
  | [] => needle.isEmpty
  | c :: rest => needle.isPrefixOf (c :: rest) || jsIncludes needle rest

/-- JS `String.prototype.indexOf` for a single character: `-1` when absent. -/
def jsIndexOf (l : Chars) (c : Char) : Int :=
  match l.findIdx? (· == c) with
  | some n => (n : Int)
  | none => -1

/-- JS `text.split('\n')`. -/
def splitNl : Chars → List Chars
  | [] => [[]]
  | c :: rest =>
    if c == '\n' then [] :: splitNl rest
    else
      match splitNl rest with
      | h :: t => (c :: h) :: t
      | [] => [[c]]

/-- The identifier character class `[a-zA-Z0-9.:_-]` of the tag regexes. -/
def identChar (c : Char) : Bool :=
  c.isAlpha || c.isDigit || c == '.' || c == ':' || c == '_' || c == '-'

/-- First match of `/<([a-zA-Z][a-zA-Z0-9.:_-]*)/` on a line: the captured
tag name (the regex engine tries successive start positions). -/
def scanTag : Chars → Option Chars
  | [] => none
  | a :: rest =>
    if a == '<' then
      match rest with
      | c :: rest2 =>
        if c.isAlpha then some (c :: rest2.takeWhile identChar)
        else scanTag rest
      | [] => none
    else scanTag rest

/-- Whether `/^<\/([a-zA-Z][a-zA-Z0-9.:_-]*)\s*>$/` matches the whole line. -/
def isCloseTag (l : Chars) : Bool :=
  match l with
  | a :: b :: c :: rest =>
    a == '<' && b == '/' && c.isAlpha &&
      (match (rest.dropWhile identChar).dropWhile isWs with
       | ['>'] => true
       | _ => false)
  | _ => false

/-- The skip guard of `parseAxaml`: comments, XML declarations, empty lines,
and any line starting with `</`. -/
def skipLine (t : Chars) : Bool :=
  ("<!--".data).isPrefixOf t || ("<?xml".data).isPrefixOf t ||
    t.isEmpty || ("</".data).isPrefixOf t

/-! ### The attribute-extraction regex
`new RegExp("<" ++ tagName ++ "\\s+([^>]*?)\\s*/?>")`, matched leftmost with
a lazy group.  Because the group excludes `>`, a successful match ends at
the first `>` after the mandatory whitespace, and laziness makes the group
the shortest prefix whose complement (up to that `>`) is whitespace
optionally followed by one `/`. -/

/-- Does `t` match `\s*\/?` exactly (whitespace, optionally ending in `/`)? -/
def wsThenOptSlash (t : Chars) : Bool :=
  match t.dropWhile isWs with
  | [] => true
  | ['/'] => true
  | _ => false

/-- Smallest lazy-group length `k ≤ g` whose residue matches `\s*\/?`;
the countdown argument starts at `g + 1`, enough for every `k ≤ g`. -/
def pickGroupAux (r : Chars) (g : Nat) : Nat → Nat → Chars
  | 0, _ => r.take g
  | fuel + 1, k =>
    if g ≤ k then r.take g
    else if wsThenOptSlash ((r.take g).drop k) then r.take k
    else pickGroupAux r g fuel (k + 1)

def pickGroup (r : Chars) (g : Nat) : Chars := pickGroupAux r g (g + 1) 0

/-- The lazy group `([^>]*?)` followed by `\s*\/?>`, applied after the
mandatory whitespace run. -/
def lazyAttrGroup (r : Chars) : Option Chars :=
  match r.findIdx? (· == '>') with
  | none => none
  | some g => some (pickGroup r g)

/-- Try the attribute regex anchored at the start of `s`. -/
def attrsMatchAt (tag : Chars) (s : Chars) : Option Chars :=
  match s with
  | '<' :: rest =>
    if tag.isPrefixOf rest then
      let r1 := rest.drop tag.length
      if r1.head?.any isWs then lazyAttrGroup (r1.dropWhile isWs) else none
    else none
  | _ => none

/-- Leftmost match of the attribute regex over the whole tag content. -/
def attrsScan (tag : Chars) : Chars → Option Chars
  | [] => none
  | x :: rest =>
    match attrsMatchAt tag (x :: rest) with
    | some gr => some gr
    | none => attrsScan tag rest

/-! ### parseAttributes -/

-- `attributeStr.replace(/\s+/g, ' ')`: each whitespace run becomes one
-- space; `collapseSkipWs` consumes the rest of a run already replaced.
mutual

def collapseWs : Chars → Chars
  | [] => []
  | c :: rest =>
    if isWs c then ' ' :: collapseSkipWs rest
    else c :: collapseWs rest

def collapseSkipWs : Chars → Chars
  | [] => []
  | c :: rest =>
    if isWs c then collapseSkipWs rest
    else c :: collapseWs rest

end

/-- One attempt of `/([a-zA-Z][a-zA-Z0-9.:_-]*)\s*=\s*["']([^"']*)["']/` at
the start of `l`; on success returns (key, value, rest-of-input).  The
closing quote may differ from the opening one. -/
def tryAttrAt (l : Chars) : Option (Chars × Chars × Chars) :=
  match l with
  | [] => none
  | c :: rest =>
    if c.isAlpha then
      let identTail := rest.takeWhile identChar
      match (rest.dropWhile identChar).dropWhile isWs with
      | '=' :: r2 =>
        match r2.dropWhile isWs with
        | q :: r3 =>
          if q == '"' || q == squote then
            let v := r3.takeWhile (fun d => !(d == '"' || d == squote))
            match r3.dropWhile (fun d => !(d == '"' || d == squote)) with
            | q2 :: r4 =>
              if q2 == '"' || q2 == squote then some (c :: identTail, v, r4)
              else none
            | [] => none
          else none
        | [] => none
      | _ => none
    else none

/-- Global (`g`-flag) scan of the attribute regex: leftmost match, resume
after each match.  `fuel` bounds the number of scan positions; every step
consumes at least one character, so `l.length` fuel is always enough. -/
def attrScanF : Nat → Chars → List (Chars × Chars)
  | 0, _ => []
  | _ + 1, [] => []
  | fuel + 1, c :: rest =>
    match tryAttrAt (c :: rest) with
    | some (k, v, rem) => (k, v) :: attrScanF fuel rem
    | none => attrScanF fuel rest

/-- The ordered list of regex matches produced while parsing an attribute
string (after whitespace collapsing and trimming). -/
def attrMatches (s : Chars) : List (Chars × Chars) :=
  let cleaned := jsTrim (collapseWs s)
  attrScanF cleaned.length cleaned

/-- JS `Map.prototype.set`: overwrite in place when the key exists,
append otherwise. -/
def mapSet (m : List (String × String)) (k v : String) :
    List (String × String) :=
  if m.any (fun p => p.1 == k) then
    m.map (fun p => if p.1 == k then (k, v) else p)
  else m ++ [(k, v)]

/-- `parseAttributes`: collapse whitespace, repeatedly match
`identifier = "value"` (or `'value'`), inserting each match into the map. -/
def parseAttributes (attributeStr : Chars) : List (String × String) :=
  (attrMatches attributeStr).foldl
    (fun m kv => mapSet m (String.mk kv.1) (String.mk kv.2)) []

/-! ### Element classifier -/

/-- JS truthiness of `map.get(k)`: `undefined` and `""` are falsy. -/
def jsTruthy : Option String → Bool
  | none => false
  | some s => !(s == "")

/-- The shared label logic of `getElementDisplayName` and
`getCleanElementDisplayName`: x:Name, then Name, then Button/Content and
TextBlock/Text fallbacks, then the bracketed tag name. -/
def displayNameFromAttrs (tagName : String)
    (attributes : List (String × String)) : String :=
  let xName := List.lookup "x:Name" attributes
  let nm := List.lookup "Name" attributes
  if jsTruthy xName then xName.getD ""
  else if jsTruthy nm then nm.getD ""
  else if tagName == "Button" then
    let content := List.lookup "Content" attributes
    if jsTruthy content then
      "[Button \"" ++ content.getD "" ++ "\"]"
    else "[" ++ tagName ++ "]"
  else if tagName == "TextBlock" then
    let txt := List.lookup "Text" attributes
    if jsTruthy txt then
      "[TextBlock \"" ++ txt.getD "" ++ "\"]"
    else "[" ++ tagName ++ "]"
  else "[" ++ tagName ++ "]"

/-- `getElementDisplayName(tagName, attributesStr)`. -/
def getElementDisplayName (tagName : String) (attributesStr : Chars) : String :=
  displayNameFromAttrs tagName (parseAttributes attributesStr)

/-- The `vscode.SymbolKind` values used by `getSymbolKind`. -/
inductive SymbolKind where
  | Class | Package | Function | String | Array | File | Object
deriving DecidableEq, Repr

/-- `getSymbolKind`: lowercase the tag name, then run the ordered
substring table.  The media needle is the literal `"mediaElement"` of the
source, uppercase `E` included. -/
def getSymbolKind (tagName : String) : SymbolKind :=
  let l := tagName.data.map Char.toLower
  if jsIncludes ("window".data) l || jsIncludes ("usercontrol".data) l then
    .Class
  else if jsIncludes ("grid".data) l || jsIncludes ("stackpanel".data) l ||
      jsIncludes ("canvas".data) l || jsIncludes ("dockpanel".data) l ||
      jsIncludes ("wrappanel".data) l || jsIncludes ("border".data) l then
    .Package
  else if jsIncludes ("button".data) l || jsIncludes ("checkbox".data) l ||
      jsIncludes ("radiobutton".data) l || jsIncludes ("slider".data) l then
    .Function
  else if jsIncludes ("textblock".data) l || jsIncludes ("textbox".data) l ||
      jsIncludes ("label".data) l then
    .String
  else if jsIncludes ("listbox".data) l || jsIncludes ("combobox".data) l ||
      jsIncludes ("datagrid".data) l || jsIncludes ("treeview".data) l then
    .Array
  else if jsIncludes ("image".data) l || jsIncludes ("mediaElement".data) l then
    .File
  else .Object

/-! ### The parser -/

/-- The `AxamlElement` interface.  `selfClosing` records the parser's
`isSelfClosing` classification (not a field of the TS interface; carried
here for specification purposes only — it influences no other field). -/
structure AxamlElement where
  name : String
  tagName : String
  attributes : List (String × String)
  children : List AxamlElement
  startLine : Nat
  endLine : Nat
  startColumn : Int
  endColumn : Int
  selfClosing : Bool

/-- An open element on the stack: its data plus the children completed so
far (attached to it on pop / end-of-document unwind). -/
structure Frame where
  elem : AxamlElement
  children : List AxamlElement

/-- Parser state: completed roots plus the open-element stack
(head = top). -/
structure PState where
  roots : List AxamlElement
  stack : List Frame

/-- The fixed exclusion list of non-visual definition tags. -/
def definitionTags : List Chars :=
  ["RowDefinitions".data, "ColumnDefinitions".data, "RowDefinition".data,
   "ColumnDefinition".data, "Resources".data, "Styles".data, "Style".data,
   "Setter".data, "Triggers".data, "DataTemplates".data,
   "ControlThemes".data]

/-- The multi-line accumulation loop: append trimmed following lines until
the content holds a `>` or the penultimate line is passed.  Returns the
accumulated content and the final line index. -/
def collectF (lines : List Chars) : Nat → Chars → Nat → Chars × Nat
  | 0, content, j => (content, j)
  | fuel + 1, content, j =>
    if jsIncludes ['>'] content then (content, j)
    else if j < lines.length - 1 then
      collectF lines fuel (content ++ ' ' :: jsTrim (lines.getD (j + 1) []))
        (j + 1)
    else (content, j)

/-- The Element Node built for the start tag found on line `i` (spanning
through the line where the accumulated tag content first holds a `>`). -/
def mkElement (lines : List Chars) (i : Nat) (tag : Chars) : AxamlElement :=
  let line := lines.getD i []
  let cj := collectF lines lines.length line i
  let content := cj.1
  let j := cj.2
  let isSelfClosing := jsIncludes ['/', '>'] content
  let attributesStr :=
    match attrsScan tag content with
    | some gr => jsTrim gr
    | none => []
  { name := getElementDisplayName (String.mk tag) attributesStr
    tagName := String.mk tag
    attributes := parseAttributes attributesStr
    children := []
    startLine := i
    endLine := j
    startColumn := jsIndexOf line '<'
    endColumn := ((lines.getD j []).length : Int)
    selfClosing := isSelfClosing }

/-- Insert a freshly built element: completed leaves (self-closing) are
attached to the current parent (stack top) or the root list; open elements
become a new stack frame. -/
def pushElement (st : PState) (element : AxamlElement) : PState :=
  if element.selfClosing then
    match st.stack with
    | [] => { st with roots := st.roots ++ [element] }
    | f :: fs =>
      { st with stack := { f with children := f.children ++ [element] } :: fs }
  else { st with stack := ⟨element, []⟩ :: st.stack }

/-- The closing-tag handler: pop the stack top, set its end span to the
closer's line, and attach it to its parent (or the root list). -/
def closeStep (st : PState) (i : Nat) (line : Chars) : PState :=
  match st.stack with
  | [] => st
  | f :: fs =>
    let closed : AxamlElement :=
      { f.elem with
          endLine := i
          endColumn := (line.length : Int)
          children := f.children }
    match fs with
    | [] => { roots := st.roots ++ [closed], stack := [] }
    | g :: gs =>
      { roots := st.roots
        stack := { g with children := g.children ++ [closed] } :: gs }

def parseStep (lines : List Chars) (i : Nat) (st : PState) : Nat × PState :=
  if skipLine (jsTrim (lines.getD i [])) then (i + 1, st)
  else
    match scanTag (jsTrim (lines.getD i [])) with
    | some tag =>
      if tag.contains '.' then (i + 1, st)
      else if definitionTags.contains tag then (i + 1, st)
      else
        ((collectF lines lines.length (lines.getD i []) i).2 + 1,
          pushElement st (mkElement lines i tag))
    | none =>
      if isCloseTag (jsTrim (lines.getD i [])) && !st.stack.isEmpty then
        (i + 1, closeStep st i (lines.getD i []))
      else (i + 1, st)

/-- The line loop of `parseAxaml`.  Each step advances the line index by at
least one, so `lines.length` fuel always reaches the end of the document. -/
def parseLoopF (lines : List Chars) : Nat → Nat → PState → PState
  | 0, _, st => st
  | fuel + 1, i, st =>
    if i < lines.length then
      let r := parseStep lines i st
      parseLoopF lines fuel r.1 r.2
    else st

/-- End-of-document unwind: elements still open keep their creation spans
and are attached to their parents (innermost first); the outermost one, if
any, becomes the last root. -/
def unwindStack (stack : List Frame) : Option AxamlElement :=
  stack.foldl
    (fun pending f =>
      some { f.elem with children := f.children ++ pending.toList }) none

def parseInit : PState := ⟨[], []⟩

def parseLinesOf (text : String) : List Chars := splitNl text.data

/-- The parser state after the line loop (before the unwind). -/
def parseFinalState (text : String) : PState :=
  let lines := parseLinesOf text
  parseLoopF lines lines.length 0 parseInit

/-- `parseAxaml`: the ordered forest of elements of a document. -/
def parseAxaml (text : String) : List AxamlElement :=
  let st := parseFinalState text
  st.roots ++ (unwindStack st.stack).toList

/-! ### Point lookup -/

/-- `vscode.Position.isBeforeOrEqual` (lexical order on line/character). -/
def posLe (a b : Nat × Int) : Bool :=
  a.1 < b.1 || (a.1 == b.1 && a.2 ≤ b.2)

/-- `range.contains(position)` for the element's full range (inclusive of
both endpoints, as in vscode). -/
def rangeContains (e : AxamlElement) (p : Nat × Int) : Bool :=
  posLe (e.startLine, e.startColumn) p && posLe p (e.endLine, e.endColumn)

/-- `findElementAtPosition`: first root whose range contains the position,
refined children-first with fall-back to the node itself. -/
def findElementAtPosition : List AxamlElement → Nat × Int → Option AxamlElement
  | [], _ => none
  | e :: rest, p =>
    if rangeContains e p then
      some ((findElementAtPosition e.children p).getD e)
    else findElementAtPosition rest p
  termination_by l _ => sizeOf l
  decreasing_by
    all_goals (try cases e)
    all_goals simp
    all_goals omega

/-! ## Specification layer -/

instance : Inhabited AxamlElement := ⟨⟨"", "", [], [], 0, 0, 0, 0, false⟩⟩

/-- `getCleanElementDisplayName` (the same label logic, applied to the
element's stored attribute map). -/
def getCleanElementDisplayName (e : AxamlElement) : String :=
  displayNameFromAttrs e.tagName e.attributes

/-- Lexical order `span.start ≤ span.end` for one element. -/
def spanLe (e : AxamlElement) : Prop :=
  e.startLine < e.endLine ∨
    (e.startLine = e.endLine ∧ e.startColumn ≤ e.endColumn)

/-- `c`'s span lies within `p`'s span (lexical containment). -/
def spanWithin (c p : AxamlElement) : Bool :=
  posLe (p.startLine, p.startColumn) (c.startLine, c.startColumn) &&
    posLe (c.endLine, c.endColumn) (p.endLine, p.endColumn)

/-- Occurrence of a node inside a subtree. -/
inductive InTree : AxamlElement → AxamlElement → Prop where
  | refl (t : AxamlElement) : InTree t t
  | child {x c t : AxamlElement} : c ∈ t.children → InTree x c → InTree x t

/-- Occurrence of a node inside a forest. -/
def InForest (x : AxamlElement) (l : List AxamlElement) : Prop :=
  ∃ r ∈ l, InTree x r

/-- Node-level invariant: ordered span, and self-closing nodes are
childless. -/
def NodeOK (e : AxamlElement) : Prop :=
  spanLe e ∧ (e.selfClosing = true → e.children = [])

/-- Subtree-level invariant. -/
def TreeOK (t : AxamlElement) : Prop := ∀ x, InTree x t → NodeOK x

/-- Frame invariant: completed children are sound subtrees, and the open
element carries its ordered creation span and is not self-closing. -/
def FrameOK (f : Frame) : Prop :=
  (∀ c ∈ f.children, TreeOK c) ∧ spanLe f.elem ∧ f.elem.selfClosing = false

/-- Parser-state invariant. -/
def StInv (st : PState) : Prop :=
  (∀ r ∈ st.roots, TreeOK r) ∧ ∀ f ∈ st.stack, FrameOK f

/-- The two elements produced by parsing `"<Grid>\n<Button/>"`; used by
several concrete counterexamples. -/
def buttonLeaf : AxamlElement :=
  ⟨"[Button]", "Button", [], [], 1, 1, 0, 9, true⟩

def gridRoot : AxamlElement :=
  ⟨"[Grid]", "Grid", [], [buttonLeaf], 0, 0, 0, 6, false⟩

/-! ## Attribute-map facts -/

/-- The ordered regex matches of an attribute string, as `String` pairs. -/
def strMatches (s : Chars) : List (String × String) :=
  (attrMatches s).map (fun kv => (String.mk kv.1, String.mk kv.2))

lemma parseAttributes_eq_foldl (s : Chars) :
    parseAttributes s =
      (strMatches s).foldl (fun m kv => mapSet m kv.1 kv.2) [] := by
  simp [parseAttributes, strMatches, List.foldl_map]

lemma lookup_append (l1 l2 : List (String × String)) (k : String) :
    List.lookup k (l1 ++ l2) =
      match List.lookup k l1 with
      | some v => some v
      | none => List.lookup k l2 := by
  induction l1 with
  | nil => simp
  | cons a tl ih =>
    obtain ⟨a1, a2⟩ := a
    by_cases h : k = a1
    · subst h
      simp [List.lookup]
    · have hb : (k == a1) = false := beq_eq_false_iff_ne.mpr h
      simp [List.lookup, hb, ih]

lemma lookup_map_replace (tl : List (String × String)) (k v k' : String)
    (hk' : k' ≠ k) :
    List.lookup k' (tl.map (fun p => if p.1 == k then (k, v) else p)) =
      List.lookup k' tl := by
  induction tl with
  | nil => simp
  | cons a tl ih =>
    obtain ⟨a1, a2⟩ := a
    by_cases h : a1 = k
    · subst h
      have hb : (k' == a1) = false := beq_eq_false_iff_ne.mpr hk'
      simp only [List.map_cons, beq_self_eq_true, if_true]
      simp only [List.lookup, hb]
      simpa using ih
    · have hb2 : (a1 == k) = false := beq_eq_false_iff_ne.mpr h
      simp only [List.map_cons, hb2, Bool.false_eq_true, if_false]
      by_cases hk2 : k' = a1
      · subst hk2
        simp [List.lookup]
      · have hb3 : (k' == a1) = false := beq_eq_false_iff_ne.mpr hk2
        simp only [List.lookup, hb3]
        simpa using ih

lemma lookup_map_hit (tl : List (String × String)) (k v : String)
    (h : tl.any (fun p => p.1 == k) = true) :
    List.lookup k (tl.map (fun p => if p.1 == k then (k, v) else p)) =
      some v := by
  induction tl with
  | nil => simp at h
  | cons a tl ih =>
    obtain ⟨a1, a2⟩ := a
    by_cases ha : a1 = k
    · subst ha
      simp only [List.map_cons, beq_self_eq_true, if_true]
      simp [List.lookup]
    · have hb2 : (a1 == k) = false := beq_eq_false_iff_ne.mpr ha
      have hb3 : (k == a1) = false := beq_eq_false_iff_ne.mpr (Ne.symm ha)
      have htl : tl.any (fun p => p.1 == k) = true := by
        simp only [List.any_cons, hb2, Bool.false_or] at h
        exact h
      simp only [List.map_cons, hb2, Bool.false_eq_true, if_false]
      simp only [List.lookup, hb3]
      simpa using ih htl

lemma lookup_eq_none_of_any_false (m : List (String × String)) (k : String)
    (h : m.any (fun p => p.1 == k) = false) :
    List.lookup k m = none := by
  induction m with
  | nil => simp
  | cons a tl ih =>
    obtain ⟨a1, a2⟩ := a
    simp only [List.any_cons, Bool.or_eq_false_iff] at h
    have hb : (k == a1) = false := by
      have := h.1
      simp only [beq_eq_false_iff_ne] at this ⊢
      exact Ne.symm this
    simp [List.lookup, hb, ih h.2]

lemma lookup_mapSet (m : List (String × String)) (k v k' : String) :
    List.lookup k' (mapSet m k v) =
      if k' = k then some v else List.lookup k' m := by
  unfold mapSet
  split
  · next h =>
    by_cases hk' : k' = k
    · subst hk'
      rw [lookup_map_hit m k' v h, if_pos rfl]
    · rw [lookup_map_replace m k v k' hk', if_neg hk']
  · next h =>
    have hany : m.any (fun p => p.1 == k) = false := by
      cases hb : m.any (fun p => p.1 == k)
      · rfl
      · exact absurd hb h
    rw [lookup_append]
    by_cases hk' : k' = k
    · subst hk'
      rw [lookup_eq_none_of_any_false m k' hany]
      simp [List.lookup]
    · have hb : (k' == k) = false := beq_eq_false_iff_ne.mpr hk'
      cases hm : List.lookup k' m with
      | some w => simp [hm, hk']
      | none => simp [hm, List.lookup, hb, hk']

lemma keys_mapSet (m : List (String × String)) (k v : String) :
    (mapSet m k v).map Prod.fst =
      if m.any (fun p => p.1 == k) then m.map Prod.fst
      else m.map Prod.fst ++ [k] := by
  unfold mapSet
  split
  · next h =>
    rw [List.map_map]
    apply List.map_congr_left
    intro p hp
    by_cases hpk : p.1 == k
    · simp only [Function.comp_apply, hpk, if_true]
      exact (eq_of_beq hpk).symm
    · have hne : ¬(p.1 = k) := by simpa using hpk
      simp [hne]
  · simp

lemma nodup_keys_mapSet (m : List (String × String)) (k v : String)
    (h : (m.map Prod.fst).Nodup) :
    ((mapSet m k v).map Prod.fst).Nodup := by
  rw [keys_mapSet]
  split
  · exact h
  · next hany =>
    have hk : k ∉ m.map Prod.fst := by
      intro hkm
      obtain ⟨p, hp, hpk⟩ := List.mem_map.mp hkm
      have : m.any (fun p => p.1 == k) = true :=
        List.any_eq_true.mpr ⟨p, hp, by simp [hpk]⟩
      simp [this] at hany
    exact List.Nodup.append h (List.nodup_singleton _)
      (fun a ha hb => by
        simp only [List.mem_singleton] at hb
        exact hk (hb ▸ ha))

lemma lookup_foldl_mapSet (ms : List (String × String)) :
    ∀ (m : List (String × String)) (k : String),
      List.lookup k (ms.foldl (fun m kv => mapSet m kv.1 kv.2) m) =
        match List.lookup k ms.reverse with
        | some v => some v
        | none => List.lookup k m := by
  induction ms with
  | nil => intro m k; simp
  | cons kv tl ih =>
    intro m k
    simp only [List.foldl_cons, List.reverse_cons]
    rw [ih, lookup_append]
    cases h : List.lookup k tl.reverse with
    | some w => simp
    | none =>
      obtain ⟨k1, v1⟩ := kv
      rw [lookup_mapSet]
      by_cases hk : k = k1
      · subst hk
        simp [List.lookup]
      · have hb : (k == k1) = false := beq_eq_false_iff_ne.mpr hk
        simp [List.lookup, hb, hk]

lemma nodup_keys_foldl_mapSet (ms : List (String × String)) :
    ∀ (m : List (String × String)), (m.map Prod.fst).Nodup →
      (((ms.foldl (fun m kv => mapSet m kv.1 kv.2) m)).map Prod.fst).Nodup := by
  induction ms with
  | nil => intro m h; simpa using h
  | cons kv tl ih =>
    intro m h
    exact ih _ (nodup_keys_mapSet m kv.1 kv.2 h)

lemma mem_mapSet (m : List (String × String)) (k v : String)
    (x : String × String) (hx : x ∈ mapSet m k v) : x ∈ m ∨ x = (k, v) := by
  unfold mapSet at hx
  split at hx
  · obtain ⟨p, hp, hpx⟩ := List.mem_map.mp hx
    by_cases hpk : p.1 == k
    · simp only [hpk, if_true] at hpx
      exact Or.inr hpx.symm
    · simp only [hpk] at hpx
      simp only [Bool.false_eq_true, if_false] at hpx
      exact Or.inl (hpx ▸ hp)
  · rcases List.mem_append.mp hx with h | h
    · exact Or.inl h
    · simp only [List.mem_singleton] at h
      exact Or.inr h

lemma mem_foldl_mapSet (ms : List (String × String)) :
    ∀ (m : List (String × String)) (x : String × String),
      x ∈ ms.foldl (fun m kv => mapSet m kv.1 kv.2) m →
        x ∈ m ∨ x ∈ ms := by
  induction ms with
  | nil => intro m x hx; exact Or.inl hx
  | cons kv tl ih =>
    intro m x hx
    rcases ih _ x hx with h | h
    · rcases mem_mapSet m kv.1 kv.2 x h with h1 | h1
      · exact Or.inl h1
      · exact Or.inr (by simp [h1])
    · exact Or.inr (List.mem_cons_of_mem _ h)

lemma tryAttrAt_value (l : Chars) (k v r : Chars)
    (h : tryAttrAt l = some (k, v, r)) :
    ∀ c ∈ v, (c == '"' || c == squote) = false := by
  intro c hc
  unfold tryAttrAt at h
  split at h
  · simp at h
  · next a rest =>
    split at h
    · split at h
      · split at h
        · split at h
          · split at h
            · split at h
              · simp only [Option.some.injEq, Prod.mk.injEq] at h
                obtain ⟨h1, h2, h3⟩ := h
                subst h2
                have hp := List.mem_takeWhile_imp hc
                simpa using hp
              · simp at h
            · simp at h
          · simp at h
        · simp at h
      · simp at h
    · simp at h

lemma attrScanF_value (fuel : Nat) :
    ∀ (l kc vc : Chars), (kc, vc) ∈ attrScanF fuel l →
      ∀ c ∈ vc, (c == '"' || c == squote) = false := by
  induction fuel with
  | zero => intro l kc vc hm; simp [attrScanF] at hm
  | succ fuel ih =>
    intro l kc vc hm c hc
    cases l with
    | nil => simp [attrScanF] at hm
    | cons a rest =>
      cases htry : tryAttrAt (a :: rest) with
      | some kvr =>
        obtain ⟨k0, v0, r0⟩ := kvr
        simp only [attrScanF, htry, List.mem_cons] at hm
        rcases hm with hm | hm
        · obtain ⟨h1, h2⟩ := Prod.mk.injEq .. ▸ hm
          subst h1; subst h2
          exact tryAttrAt_value _ _ _ _ htry c hc
        · exact ih r0 kc vc hm c hc
      | none =>
        simp only [attrScanF, htry] at hm
        exact ih rest kc vc hm c hc

/-! ## Claim theorems: attributes, labels, symbol kinds -/

/-- **C8.**  `parseAttributes` returns a mapping with pairwise-distinct
keys; the value stored for a key is the value of the last regex match with
that identifier; empty and unparseable inputs give the empty mapping (the
function is total, hence never throws). -/
theorem axamlC8_attributeMap :
    (∀ s : Chars, ((parseAttributes s).map Prod.fst).Nodup ∧
      ∀ k : String, List.lookup k (parseAttributes s) =
        List.lookup k (strMatches s).reverse) ∧
    parseAttributes [] = [] ∧
    parseAttributes ("<<%%>>==".data) = [] := by
  refine ⟨?_, by decide, by decide⟩
  intro s
  constructor
  · rw [parseAttributes_eq_foldl]
    exact nodup_keys_foldl_mapSet _ _ (by simp)
  · intro k
    rw [parseAttributes_eq_foldl, lookup_foldl_mapSet]
    cases h : List.lookup k (strMatches s).reverse <;> simp [List.lookup]

/-- **C10.**  The attribute regex accepts mismatched quote pairs (a value
opened with `"` may be closed with `'` and vice versa), and no parsed
value ever contains a quote character of either kind. -/
theorem axamlC10_attrQuotes :
    parseAttributes ('a' :: '=' :: '"' :: 'x' :: squote :: []) = [("a", "x")] ∧
    parseAttributes ('a' :: '=' :: squote :: 'x' :: '"' :: []) = [("a", "x")] ∧
    ∀ (s : Chars) (k v : String), (k, v) ∈ parseAttributes s →
      ∀ c ∈ v.data, c ≠ '"' ∧ c ≠ squote := by
  refine ⟨by decide, by decide, ?_⟩
  intro s k v hm c hc
  rw [parseAttributes_eq_foldl] at hm
  rcases mem_foldl_mapSet _ _ _ hm with h | h
  · simp at h
  · obtain ⟨⟨kc, vc⟩, hkv, heq⟩ := List.mem_map.mp h
    simp only [Prod.mk.injEq] at heq
    have hpure := attrScanF_value (jsTrim (collapseWs s)).length
      (jsTrim (collapseWs s)) kc vc hkv c
      (by rw [← heq.2] at hc; exact hc)
    simpa [Bool.or_eq_false_iff, beq_eq_false_iff_ne] using hpure

/-- **C5 counterexample.**  An `x:Name` attribute that is present but
empty does *not* win: JS truthiness sends the empty string down the
fallback chain, so the label is not the x:Name value. -/
theorem axamlC5_cx :
    List.lookup "x:Name"
      (parseAttributes ("x:Name=\"\" Content=\"Hi\"".data)) = some "" ∧
    getElementDisplayName "Button" ("x:Name=\"\" Content=\"Hi\"".data) =
      "[Button \"Hi\"]" ∧
    ("[Button \"Hi\"]" : String) ≠ "" := by
  refine ⟨by decide, by decide, by decide⟩

/-- **C5 (amended).**  Label precedence with the truthiness caveat: a
*non-empty* x:Name wins, then a non-empty Name, then Button/Content and
TextBlock/Text fallbacks for non-empty values, else the bracketed tag
name; and the two spec examples hold through the full parsing pipeline. -/
theorem axamlC5_labelPriority :
    (∀ (tagName : String) (attrs : List (String × String)),
      (∀ s, List.lookup "x:Name" attrs = some s → s ≠ "" →
        displayNameFromAttrs tagName attrs = s) ∧
      (jsTruthy (List.lookup "x:Name" attrs) = false →
        ∀ s, List.lookup "Name" attrs = some s → s ≠ "" →
          displayNameFromAttrs tagName attrs = s) ∧
      (jsTruthy (List.lookup "x:Name" attrs) = false →
        jsTruthy (List.lookup "Name" attrs) = false →
        (∀ c, tagName = "Button" → List.lookup "Content" attrs = some c →
          c ≠ "" →
          displayNameFromAttrs tagName attrs = "[Button \"" ++ c ++ "\"]") ∧
        (∀ t, tagName = "TextBlock" → List.lookup "Text" attrs = some t →
          t ≠ "" →
          displayNameFromAttrs tagName attrs = "[TextBlock \"" ++ t ++ "\"]") ∧
        ((tagName = "Button" → jsTruthy (List.lookup "Content" attrs) = false) →
         (tagName = "TextBlock" → jsTruthy (List.lookup "Text" attrs) = false) →
          displayNameFromAttrs tagName attrs = "[" ++ tagName ++ "]"))) ∧
    (parseAxaml "<Button Content=\"Click Me!\" x:Name=\"TestButton\"/>").map
      (fun e => e.name) = ["TestButton"] ∧
    (parseAxaml "<Button Content=\"Another Button\"/>").map
      (fun e => e.name) = ["[Button \"Another Button\"]"] := by
  refine ⟨?_, by decide, by decide⟩
  intro tagName attrs
  refine ⟨?_, ?_, ?_⟩
  · intro s hs hne
    have ht : jsTruthy (some s) = true := by
      simpa [jsTruthy] using hne
    simp [displayNameFromAttrs, hs, ht]
  · intro hx s hs hne
    have ht : jsTruthy (some s) = true := by
      simpa [jsTruthy] using hne
    simp [displayNameFromAttrs, hx, hs, ht]
  · intro hx hn
    refine ⟨?_, ?_, ?_⟩
    · intro c htag hc hcne
      subst htag
      have ht : jsTruthy (some c) = true := by
        simpa [jsTruthy] using hcne
      simp [displayNameFromAttrs, hx, hn, hc, ht]
    · intro t htag htt htne
      subst htag
      have ht : jsTruthy (some t) = true := by
        simpa [jsTruthy] using htne
      simp [displayNameFromAttrs, hx, hn, htt, ht]
    · intro hbc htc
      by_cases hb : tagName = "Button"
      · subst hb
        simp [displayNameFromAttrs, hx, hn, hbc rfl]
      · by_cases htb : tagName = "TextBlock"
        · subst htb
          simp [displayNameFromAttrs, hx, hn, htc rfl]
        · simp [displayNameFromAttrs, hx, hn, hb, htb]

/-- **C5 witness.** -/
theorem axamlC5_witness :
    displayNameFromAttrs "Button" [("x:Name", "N")] = "N" :=
  (axamlC5_labelPriority.1 "Button" [("x:Name", "N")]).1 "N" (by decide)
    (by decide)

/-- **C10 witness.** -/
theorem axamlC10_witness : ('x' : Char) ≠ '"' ∧ ('x' : Char) ≠ squote :=
  axamlC10_attrQuotes.2.2 ('a' :: '=' :: '"' :: 'x' :: squote :: [])
    "a" "x" (by decide) 'x' (by decide)

/-- **C7.**  `getSymbolKind` lowercases the tag name before the substring
table, but the media needle is the literal `"mediaElement"` (capital `E`),
which can never occur in a lowercased string: `MediaElement` falls through
to the generic Object kind instead of File, contradicting the claim.
`Image` still maps to File, and unmatched names map to Object. -/
theorem axamlC7_symbolKind :
    getSymbolKind "MediaElement" = SymbolKind.Object ∧
    getSymbolKind "Image" = SymbolKind.File ∧
    getSymbolKind "Window" = SymbolKind.Class ∧
    getSymbolKind "Unknown" = SymbolKind.Object := by
  refine ⟨by decide, by decide, by decide, by decide⟩

/-- **C1.**  The failing input evaluated: line 1 of `"<Grid>\n</Grid>"` is
exactly a closing tag and the stack is non-empty there, yet the parser
leaves the Grid open (its frame is still on the stack after the loop) and
its end span stays at line 0 — the skip guard consumes every line starting
with `</` before the closing-tag handler can run. -/
theorem axamlC1_closerSkipped :
    isCloseTag (jsTrim ("</Grid>".data)) = true ∧
    (parseAxaml "<Grid>\n</Grid>").map
      (fun e => (e.tagName, e.startLine, e.endLine, e.endColumn,
        e.children.length)) = [("Grid", 0, 0, 6, 0)] ∧
    (parseFinalState "<Grid>\n</Grid>").stack.map (fun f => f.elem.tagName) =
      ["Grid"] := by
  refine ⟨by decide, by decide, by decide⟩

/-- **C2 counterexample.**  On the one-line nesting example the root Grid
has zero children, not one. -/
theorem axamlC2_cx :
    (parseAxaml "<Grid><StackPanel><Button/></StackPanel></Grid>").map
      (fun e => (e.tagName, e.children.length)) ≠ [("Grid", 1)] := by decide

/-- **C2 (amended).**  The one-line input yields exactly one root element,
a `Grid` with zero children, classified self-closing because the line
contains `/>`; the StackPanel and Button tags produce no nodes. -/
theorem axamlC2_singleLineNesting :
    (parseAxaml "<Grid><StackPanel><Button/></StackPanel></Grid>").map
      (fun e => (e.tagName, e.name, e.children.length, e.selfClosing,
        (e.startLine, e.endLine), (e.startColumn, e.endColumn))) =
      [("Grid", "[Grid]", 0, true, (0, 0), (0, 47))] := by decide

/-! ## The parser invariant (spans ordered, self-closing ⇒ childless) -/

lemma collectF_ge (lines : List Chars) :
    ∀ (fuel : Nat) (content : Chars) (j : Nat),
      j ≤ (collectF lines fuel content j).2 := by
  intro fuel
  induction fuel with
  | zero => intro content j; exact le_refl j
  | succ fuel ih =>
    intro content j
    unfold collectF
    split
    · exact le_refl j
    · split
      · exact le_trans (Nat.le_succ j) (ih _ _)
      · exact le_refl j

lemma scanTag_mem (l : Chars) (t : Chars) (h : scanTag l = some t) :
    '<' ∈ l := by
  induction l with
  | nil => simp [scanTag] at h
  | cons a rest ih =>
    by_cases ha : (a == '<') = true
    · exact List.mem_cons.mpr (Or.inl (eq_of_beq ha).symm)
    · simp only [scanTag] at h
      rw [if_neg ha] at h
      exact List.mem_cons_of_mem a (ih h)

lemma mem_jsTrim (c : Char) (l : Chars) (h : c ∈ jsTrim l) : c ∈ l := by
  unfold jsTrim at h
  rw [List.mem_reverse] at h
  have h2 : c ∈ (l.dropWhile isWs).reverse :=
    (List.dropWhile_sublist isWs).subset h
  rw [List.mem_reverse] at h2
  exact (List.dropWhile_sublist isWs).subset h2

lemma jsIndexOf_bounds (l : Chars) (c : Char) (h : c ∈ l) :
    0 ≤ jsIndexOf l c ∧ jsIndexOf l c < (l.length : Int) := by
  have hex : ∃ n, l.findIdx? (· == c) = some n ∧ n < l.length := by
    induction l with
    | nil => simp at h
    | cons a rest ih =>
      by_cases ha : (a == c) = true
      · exact ⟨0, by simp [List.findIdx?_cons, ha], by simp⟩
      · have hc : c ∈ rest := by
          rcases List.mem_cons.mp h with h1 | h1
          · exact absurd (by simp [h1] : (a == c) = true) ha
          · exact h1
        obtain ⟨n, hn, hlt⟩ := ih hc
        refine ⟨n + 1, by simp [List.findIdx?_cons, ha, hn], by simpa using hlt⟩
  obtain ⟨n, hn, hlt⟩ := hex
  unfold jsIndexOf
  rw [hn]
  refine ⟨?_, ?_⟩
  · show (0 : Int) ≤ (n : Int)
    exact Int.natCast_nonneg n
  · show (n : Int) < (l.length : Int)
    exact_mod_cast hlt

lemma closeTag_starts (t : Chars) (h : isCloseTag t = true) :
    (("</".data).isPrefixOf t) = true := by
  rcases t with _ | ⟨a, _ | ⟨b, _ | ⟨c, rest⟩⟩⟩
  · simp [isCloseTag] at h
  · simp [isCloseTag] at h
  · simp [isCloseTag] at h
  · simp only [isCloseTag, Bool.and_eq_true, beq_iff_eq] at h
    obtain ⟨⟨⟨ha, hb⟩, _⟩, _⟩ := h
    subst ha; subst hb
    simp [List.isPrefixOf]

lemma skip_of_close (t : Chars) (h : isCloseTag t = true) :
    skipLine t = true := by
  have hp := closeTag_starts t h
  simp [skipLine, hp]

lemma InTree_cases {x t : AxamlElement} (h : InTree x t) :
    x = t ∨ ∃ c ∈ t.children, InTree x c := by
  cases h with
  | refl => exact Or.inl rfl
  | child hc hx => exact Or.inr ⟨_, hc, hx⟩

lemma TreeOK_leaf (e : AxamlElement) (h : NodeOK e) (hc : e.children = []) :
    TreeOK e := by
  intro x hx
  rcases InTree_cases hx with h1 | ⟨c, hc2, _⟩
  · exact h1 ▸ h
  · rw [hc] at hc2
    simp at hc2

lemma TreeOK_node (e : AxamlElement) (cs : List AxamlElement)
    (hspan : spanLe e) (hsc : e.selfClosing = false)
    (hcs : ∀ c ∈ cs, TreeOK c) : TreeOK { e with children := cs } := by
  intro x hx
  rcases InTree_cases hx with h1 | ⟨c, hc2, hx2⟩
  · subst h1
    refine ⟨hspan, ?_⟩
    intro hh
    rw [show ({ e with children := cs } : AxamlElement).selfClosing =
      e.selfClosing from rfl, hsc] at hh
    exact absurd hh (by simp)
  · have hcm : c ∈ cs := by simpa using hc2
    exact hcs c hcm x hx2

lemma mkElement_spanLe (lines : List Chars) (i : Nat) (tag : Chars)
    (h : scanTag (jsTrim (lines.getD i [])) = some tag) :
    spanLe (mkElement lines i tag) := by
  have hij : i ≤ (collectF lines lines.length (lines.getD i []) i).2 :=
    collectF_ge lines _ _ i
  unfold spanLe
  rcases eq_or_lt_of_le hij with heq | hlt
  · have hmem : '<' ∈ lines.getD i [] := mem_jsTrim _ _ (scanTag_mem _ _ h)
    have hb := jsIndexOf_bounds (lines.getD i []) '<' hmem
    refine Or.inr ⟨?_, ?_⟩
    · show i = (collectF lines lines.length (lines.getD i []) i).2
      exact heq
    · show jsIndexOf (lines.getD i []) '<' ≤
        ((lines.getD ((collectF lines lines.length (lines.getD i []) i).2)
          []).length : Int)
      rw [← heq]
      exact le_of_lt hb.2
  · refine Or.inl ?_
    show i < (collectF lines lines.length (lines.getD i []) i).2
    exact hlt

lemma pushElement_inv (st : PState) (element : AxamlElement)
    (h : StInv st) (hspan : spanLe element) (hch : element.children = []) :
    StInv (pushElement st element) := by
  unfold pushElement
  by_cases hsc : element.selfClosing = true
  · rw [if_pos hsc]
    have htree : TreeOK element := TreeOK_leaf element ⟨hspan, fun _ => hch⟩ hch
    cases hstack : st.stack with
    | nil =>
      refine ⟨?_, ?_⟩
      · intro r hr
        rcases List.mem_append.mp hr with h1 | h1
        · exact h.1 r h1
        · simp only [List.mem_singleton] at h1
          exact h1 ▸ htree
      · intro f hf
        exact absurd hf (List.not_mem_nil f)
    | cons f fs =>
      refine ⟨h.1, ?_⟩
      intro f2 hf2
      rcases List.mem_cons.mp hf2 with h1 | h1
      · subst h1
        have hf := h.2 f (hstack ▸ List.mem_cons_self f fs)
        refine ⟨?_, hf.2⟩
        intro c hcm
        rcases List.mem_append.mp hcm with h2 | h2
        · exact hf.1 c h2
        · simp only [List.mem_singleton] at h2
          exact h2 ▸ htree
      · exact h.2 f2 (hstack ▸ List.mem_cons_of_mem f h1)
  · rw [if_neg hsc]
    refine ⟨h.1, ?_⟩
    intro f hf
    rcases List.mem_cons.mp hf with h1 | h1
    · subst h1
      exact ⟨fun c hc => absurd hc (by simp), hspan,
        Bool.not_eq_true _ ▸ Bool.of_not_eq_true hsc⟩
    · exact h.2 f h1

lemma parseStep_inv (lines : List Chars) (i : Nat) (st : PState)
    (h : StInv st) : StInv (parseStep lines i st).2 := by
  unfold parseStep
  by_cases hskip : skipLine (jsTrim (lines.getD i [])) = true
  · rw [if_pos hskip]
    exact h
  · rw [if_neg hskip]
    cases htag : scanTag (jsTrim (lines.getD i [])) with
    | some tag =>
      simp only [htag]
      by_cases hdot : tag.contains '.' = true
      · rw [if_pos hdot]
        exact h
      · rw [if_neg hdot]
        by_cases hdef : definitionTags.contains tag = true
        · rw [if_pos hdef]
          exact h
        · rw [if_neg hdef]
          exact pushElement_inv st _ h (mkElement_spanLe lines i tag htag) rfl
    | none =>
      simp only [htag]
      by_cases hcl : (isCloseTag (jsTrim (lines.getD i [])) &&
          !st.stack.isEmpty) = true
      · have hcl2 := hcl
        simp only [Bool.and_eq_true] at hcl2
        exact absurd (skip_of_close _ hcl2.1) hskip
      · rw [if_neg hcl]
        exact h

lemma parseLoopF_inv (lines : List Chars) :
    ∀ (fuel i : Nat) (st : PState), StInv st →
      StInv (parseLoopF lines fuel i st) := by
  intro fuel
  induction fuel with
  | zero => intro i st h; exact h
  | succ fuel ih =>
    intro i st h
    unfold parseLoopF
    split
    · exact ih _ _ (parseStep_inv lines i st h)
    · exact h

lemma parseFinalState_inv (text : String) : StInv (parseFinalState text) :=
  parseLoopF_inv _ _ _ _
    ⟨fun r hr => absurd hr (by simp [parseInit]),
     fun f hf => absurd hf (by simp [parseInit])⟩

lemma unwindStack_TreeOK :
    ∀ (stack : List Frame) (pending : Option AxamlElement),
      (∀ f ∈ stack, FrameOK f) → (∀ p, pending = some p → TreeOK p) →
      ∀ e, stack.foldl (fun pending f =>
          some { f.elem with children := f.children ++ pending.toList })
        pending = some e → TreeOK e := by
  intro stack
  induction stack with
  | nil =>
    intro pending hf hp e he
    exact hp e he
  | cons f fs ih =>
    intro pending hf hp e he
    simp only [List.foldl_cons] at he
    refine ih _ (fun g hg => hf g (List.mem_cons_of_mem f hg)) ?_ e he
    intro p hp2
    have hq := hf f (List.mem_cons_self f fs)
    injection hp2 with hp3
    subst hp3
    refine TreeOK_node f.elem _ hq.2.1 hq.2.2 ?_
    intro c hcm
    rcases List.mem_append.mp hcm with h2 | h2
    · exact hq.1 c h2
    · have : pending = some c := by
        cases pending with
        | none => simp at h2
        | some q =>
          simp only [Option.toList_some, List.mem_singleton] at h2
          exact h2 ▸ rfl
      exact hp c this

lemma unwind_TreeOK (stack : List Frame) (hf : ∀ f ∈ stack, FrameOK f)
    (e : AxamlElement) (he : unwindStack stack = some e) : TreeOK e :=
  unwindStack_TreeOK stack none hf (by simp) e he

lemma parseAxaml_NodeOK (text : String) (x : AxamlElement)
    (h : InForest x (parseAxaml text)) : NodeOK x := by
  obtain ⟨r, hr, hx⟩ := h
  have hinv := parseFinalState_inv text
  have hr' : r ∈ (parseFinalState text).roots ++
      (unwindStack (parseFinalState text).stack).toList := hr
  rcases List.mem_append.mp hr' with h1 | h1
  · exact hinv.1 r h1 x hx
  · cases hu : unwindStack (parseFinalState text).stack with
    | none =>
      rw [hu] at h1
      simp at h1
    | some e =>
      rw [hu] at h1
      simp only [Option.toList_some, List.mem_singleton] at h1
      exact unwind_TreeOK _ hinv.2 e hu x (h1 ▸ hx)

lemma parse_grid_button :
    parseAxaml "<Grid>\n<Button/>" = [gridRoot] := rfl

/-! ## Claim theorems: spans, self-closing elements -/

/-- **C3 counterexample.**  A child's span need not lie within its
parent's: since the parser never pops the stack, `Grid`'s end span stays
on its opening line, while the `Button` child starts on the next line. -/
theorem axamlC3_cx :
    parseAxaml "<Grid>\n<Button/>" = [gridRoot] ∧
    gridRoot.children = [buttonLeaf] ∧
    spanWithin buttonLeaf gridRoot = false :=
  ⟨parse_grid_button, rfl, by decide⟩

/-- **C3 (amended).**  Every Element Node of every parsed forest has
`span.end` lexically ≥ `span.start`; child-within-parent containment
does not hold in general (see the counterexample). -/
theorem axamlC3_spanOrder (text : String) (x : AxamlElement)
    (h : InForest x (parseAxaml text)) : spanLe x :=
  (parseAxaml_NodeOK text x h).1

/-- **C3 witness.** -/
theorem axamlC3_witness : spanLe gridRoot :=
  axamlC3_spanOrder "<Grid>\n<Button/>" gridRoot
    ⟨gridRoot, by rw [parse_grid_button]; exact List.mem_singleton.mpr rfl,
      InTree.refl gridRoot⟩

/-- **C4.**  Self-closing elements are never pushed onto the open-element
stack (every frame ever on the stack — in particular every frame still
open at the end of the loop — holds a non-self-closing element, and
`pushElement` only creates frames in its non-self-closing branch), and
every self-closing node in the returned forest has exactly zero
children. -/
theorem axamlC4_selfClosing :
    (∀ (text : String) (x : AxamlElement), InForest x (parseAxaml text) →
      x.selfClosing = true → x.children = []) ∧
    (∀ (st : PState) (element : AxamlElement), StInv st → spanLe element →
      element.children = [] →
      ∀ f ∈ (pushElement st element).stack, f.elem.selfClosing = false) ∧
    (∀ (text : String) (f : Frame), f ∈ (parseFinalState text).stack →
      f.elem.selfClosing = false) := by
  refine ⟨?_, ?_, ?_⟩
  · intro text x h
    exact (parseAxaml_NodeOK text x h).2
  · intro st element hst hspan hch f hf
    exact ((pushElement_inv st element hst hspan hch).2 f hf).2.2
  · intro text f hf
    exact ((parseFinalState_inv text).2 f hf).2.2

/-- **C4 witness.** -/
theorem axamlC4_witness : buttonLeaf.children = [] :=
  axamlC4_selfClosing.1 "<Grid>\n<Button/>" buttonLeaf
    ⟨gridRoot, by rw [parse_grid_button]; exact List.mem_singleton.mpr rfl,
      InTree.child (by simp [gridRoot]) (InTree.refl buttonLeaf)⟩ rfl

/-! ## Claim theorems: point lookup -/

/-- **C6 counterexample.**  The lookup returns none although a node of the
forest (the Button child) contains the position: ancestors whose spans do
not contain the position make their descendants unreachable, so the
result is not "the deepest node whose span contains the position, none
only when no node contains it". -/
theorem axamlC6_cx :
    findElementAtPosition (parseAxaml "<Grid>\n<Button/>") (1, 2) = none ∧
    InForest buttonLeaf (parseAxaml "<Grid>\n<Button/>") ∧
    rangeContains buttonLeaf (1, 2) = true := by
  refine ⟨?_, ?_, by decide⟩
  · rw [parse_grid_button]
    simp [findElementAtPosition, gridRoot, buttonLeaf, rangeContains, posLe]
  · rw [parse_grid_button]
    exact ⟨gridRoot, List.mem_singleton.mpr rfl,
      InTree.child (by simp [gridRoot]) (InTree.refl buttonLeaf)⟩

/-- **C6 (amended).**  `findElementAtPosition` returns none exactly when no
top-level element's range contains the position; any returned node lies in
the forest, its range contains the position, and no child of it contains
the position (children-first descent with fall-back, first containing
sibling wins, ancestors-only reachability). -/
theorem axamlC6_pointLookup :
    ∀ (es : List AxamlElement) (p : Nat × Int),
      (findElementAtPosition es p = none ↔
        ∀ e ∈ es, rangeContains e p = false) ∧
      (∀ r, findElementAtPosition es p = some r →
        InForest r es ∧ rangeContains r p = true ∧
          ∀ c ∈ r.children, rangeContains c p = false) := by
  intro es p
  induction es, p using findElementAtPosition.induct with
  | case1 p =>
    constructor
    · simp [findElementAtPosition]
    · intro r hr
      simp [findElementAtPosition] at hr
  | case2 e rest p hcont ihc =>
    have heq : findElementAtPosition (e :: rest) p =
        some ((findElementAtPosition e.children p).getD e) := by
      simp [findElementAtPosition, hcont]
    constructor
    · rw [heq]
      constructor
      · intro h
        exact absurd h (by simp)
      · intro hall
        exact absurd hcont (by simp [hall e (List.mem_cons_self e rest)])
    · intro r hr
      rw [heq] at hr
      injection hr with hr2
      cases hch : findElementAtPosition e.children p with
      | none =>
        rw [hch] at hr2
        simp only [Option.getD_none] at hr2
        subst hr2
        refine ⟨⟨e, List.mem_cons_self e rest, InTree.refl e⟩, hcont, ?_⟩
        exact ihc.1.mp hch
      | some cx =>
        rw [hch] at hr2
        simp only [Option.getD_some] at hr2
        obtain ⟨⟨rr, hrr, htree⟩, hc1, hc2⟩ := ihc.2 cx hch
        subst hr2
        exact ⟨⟨e, List.mem_cons_self e rest, InTree.child hrr htree⟩, hc1, hc2⟩
  | case3 e rest p hcont ihr =>
    have hcf : rangeContains e p = false := by
      cases hcc : rangeContains e p
      · rfl
      · exact absurd hcc hcont
    have heq : findElementAtPosition (e :: rest) p =
        findElementAtPosition rest p := by
      simp [findElementAtPosition, hcf]
    constructor
    · rw [heq]
      constructor
      · intro h e2 he2
        rcases List.mem_cons.mp he2 with h1 | h1
        · exact h1 ▸ hcf
        · exact (ihr.1.mp h) e2 h1
      · intro hall
        exact ihr.1.mpr (fun e2 he2 => hall e2 (List.mem_cons_of_mem e he2))
    · intro r hr
      rw [heq] at hr
      obtain ⟨⟨rr, hrr, htree⟩, hc1, hc2⟩ := ihr.2 r hr
      exact ⟨⟨rr, List.mem_cons_of_mem e hrr, htree⟩, hc1, hc2⟩

/-- **C6 witness.** -/
theorem axamlC6_witness :
    InForest gridRoot [gridRoot] ∧ rangeContains gridRoot (0, 3) = true ∧
      ∀ c ∈ gridRoot.children, rangeContains c (0, 3) = false :=
  (axamlC6_pointLookup [gridRoot] (0, 3)).2 gridRoot
    (by simp [findElementAtPosition, gridRoot, buttonLeaf, rangeContains,
      posLe])

/-! ## Claim theorems: one tag per line, `/>` anywhere means self-closing -/

lemma splitNl_no_nl (l : Chars) (h : '\n' ∉ l) : splitNl l = [l] := by
  induction l with
  | nil => rfl
  | cons c rest ih =>
    have hc : (c == '\n') = false := by
      refine beq_eq_false_iff_ne.mpr ?_
      intro hcc
      exact h (by simp [hcc])
    have hrest : '\n' ∉ rest := fun hr => h (List.mem_cons_of_mem _ hr)
    simp [splitNl, hc, ih hrest]

lemma collect_single (l : Chars) : collectF [l] 1 l 0 = (l, 0) := by
  unfold collectF
  split
  · rfl
  · simp

/-- A one-line document parses to `[]` or to the single element built from
the first tag of that line. -/
lemma parseAxaml_single (s : String) (hnl : '\n' ∉ s.data) :
    parseAxaml s = [] ∨
    ∃ tag, scanTag (jsTrim s.data) = some tag ∧
      parseAxaml s = [mkElement [s.data] 0 tag] := by
  have hlines : parseLinesOf s = [s.data] := by
    unfold parseLinesOf
    exact splitNl_no_nl s.data hnl
  have hloop : parseFinalState s = (parseStep [s.data] 0 parseInit).2 := by
    unfold parseFinalState
    rw [hlines]
    show parseLoopF [s.data] 1 0 parseInit = _
    unfold parseLoopF
    rw [if_pos (by simp)]
    rfl
  unfold parseAxaml
  rw [hloop]
  unfold parseStep
  simp only [List.getD_cons_zero]
  by_cases hskip : skipLine (jsTrim s.data) = true
  · rw [if_pos hskip]
    left
    simp [parseInit, unwindStack]
  · rw [if_neg hskip]
    cases htag : scanTag (jsTrim s.data) with
    | none =>
      simp only [htag]
      rw [if_neg (by simp [parseInit])]
      left
      simp [parseInit, unwindStack]
    | some tag =>
      simp only [htag]
      by_cases hdot : tag.contains '.' = true
      · rw [if_pos hdot]
        left
        simp [parseInit, unwindStack]
      · rw [if_neg hdot]
        by_cases hdef : definitionTags.contains tag = true
        · rw [if_pos hdef]
          left
          simp [parseInit, unwindStack]
        · rw [if_neg hdef]
          right
          refine ⟨tag, rfl, ?_⟩
          unfold pushElement
          by_cases hsc : (mkElement [s.data] 0 tag).selfClosing = true
          · rw [if_pos hsc]
            simp [parseInit, unwindStack]
          · rw [if_neg hsc]
            simp only [parseInit, unwindStack, List.foldl_cons, List.foldl_nil,
              Option.toList_none, List.append_nil, Option.toList_some,
              List.nil_append]
            rfl

/-- **C9.**  On any single-line document the parser produces at most one
Element Node; when it produces one, its tag name is the first tag match of
the (trimmed) line and it is classified self-closing exactly when the
line contains `/>` anywhere.  In particular `"<Grid><Button/>"` yields
only a Grid node, marked self-closing by the `/>` of the *Button* tag,
with zero children. -/
theorem axamlC9_lineScanning :
    (∀ s : String, '\n' ∉ s.data →
      (parseAxaml s).length ≤ 1 ∧
      ∀ e, parseAxaml s = [e] →
        some e.tagName.data = scanTag (jsTrim s.data) ∧
        e.selfClosing = jsIncludes ('/' :: '>' :: []) s.data) ∧
    (parseAxaml "<Grid><Button/>").map
      (fun e => (e.tagName, e.selfClosing, e.children.length)) =
      [("Grid", true, 0)] := by
  refine ⟨?_, by decide⟩
  intro s hnl
  rcases parseAxaml_single s hnl with h | ⟨tag, htag, h⟩
  · rw [h]
    exact ⟨by simp, fun e he => absurd he (by simp)⟩
  · rw [h]
    refine ⟨by simp, ?_⟩
    intro e he
    have he2 : mkElement [s.data] 0 tag = e := by
      simpa using he
    subst he2
    constructor
    · rw [htag]
      exact rfl
    · show jsIncludes ('/' :: '>' :: []) (collectF [s.data] 1 s.data 0).1 =
        jsIncludes ('/' :: '>' :: []) s.data
      rw [collect_single]

/-- **C9 witness.** -/
theorem axamlC9_witness : (parseAxaml "<Button/>").length ≤ 1 :=
  (axamlC9_lineScanning.1 "<Button/>" (by decide)).1

/-! ## Fuel adequacy
The three fuelled loops (`collectF`, `parseLoopF`, `attrScanF`) are given
enough fuel by their callers that adding more fuel never changes the
result, so they model the unbounded `while`/regex loops of the source
exactly. -/

lemma parseStep_advance (lines : List Chars) (i : Nat) (st : PState) :
    i < (parseStep lines i st).1 := by
  unfold parseStep
  split
  · exact Nat.lt_succ_self i
  · split
    · split
      · exact Nat.lt_succ_self i
      · split
        · exact Nat.lt_succ_self i
        · exact Nat.lt_succ_of_le (collectF_ge lines _ _ i)
    · split
      · exact Nat.lt_succ_self i
      · exact Nat.lt_succ_self i

lemma parseLoopF_stop (lines : List Chars) (fuel i : Nat) (st : PState)
    (h : ¬ i < lines.length) : parseLoopF lines fuel i st = st := by
  cases fuel
  · rfl
  · unfold parseLoopF
    rw [if_neg h]

lemma parseLoopF_fuel_mono (lines : List Chars) :
    ∀ (f i : Nat) (st : PState), lines.length ≤ i + f →
      parseLoopF lines (f + 1) i st = parseLoopF lines f i st := by
  intro f
  induction f with
  | zero =>
    intro i st h
    rw [parseLoopF_stop lines 1 i st (by omega),
      parseLoopF_stop lines 0 i st (by omega)]
  | succ f ih =>
    intro i st h
    by_cases hi : i < lines.length
    · show parseLoopF lines (f + 1 + 1) i st = parseLoopF lines (f + 1) i st
      unfold parseLoopF
      rw [if_pos hi, if_pos hi]
      have hadv := parseStep_advance lines i st
      exact ih _ _ (by omega)
    · rw [parseLoopF_stop _ _ _ _ hi, parseLoopF_stop _ _ _ _ hi]

lemma parseLoopF_fuel_stable (lines : List Chars) (k : Nat) (st : PState) :
    parseLoopF lines (lines.length + k) 0 st =
      parseLoopF lines lines.length 0 st := by
  induction k with
  | zero => rfl
  | succ k ih =>
    rw [show lines.length + (k + 1) = (lines.length + k) + 1 from rfl,
      parseLoopF_fuel_mono lines (lines.length + k) 0 st (by omega), ih]

lemma collectF_fuel_mono (lines : List Chars) :
    ∀ (f : Nat) (c : Chars) (j : Nat), lines.length - 1 ≤ j + f →
      collectF lines (f + 1) c j = collectF lines f c j := by
  intro f
  induction f with
  | zero =>
    intro c j h
    show collectF lines 1 c j = collectF lines 0 c j
    unfold collectF
    by_cases hinc : jsIncludes ['>'] c = true
    · rw [if_pos hinc]
    · rw [if_neg hinc, if_neg (by omega : ¬ j < lines.length - 1)]
  | succ f ih =>
    intro c j h
    show collectF lines (f + 1 + 1) c j = collectF lines (f + 1) c j
    unfold collectF
    by_cases hinc : jsIncludes ['>'] c = true
    · rw [if_pos hinc, if_pos hinc]
    · rw [if_neg hinc, if_neg hinc]
      by_cases hj : j < lines.length - 1
      · rw [if_pos hj, if_pos hj]
        exact ih _ _ (by omega)
      · rw [if_neg hj, if_neg hj]

lemma collectF_fuel_stable (lines : List Chars) (k : Nat) (c : Chars)
    (j : Nat) :
    collectF lines (lines.length + k) c j = collectF lines lines.length c j := by
  induction k with
  | zero => rfl
  | succ k ih =>
    rw [show lines.length + (k + 1) = (lines.length + k) + 1 from rfl,
      collectF_fuel_mono lines (lines.length + k) c j (by omega), ih]

lemma tryAttrAt_length (l k v r : Chars) (h : tryAttrAt l = some (k, v, r)) :
    r.length < l.length := by
  unfold tryAttrAt at h
  split at h
  · simp at h
  · next c rest =>
    split at h
    · split at h
      · next r2 heq1 =>
        split at h
        · next q r3 heq2 =>
          split at h
          · split at h
            · next q2 r4 heq3 =>
              split at h
              · simp only [Option.some.injEq, Prod.mk.injEq] at h
                obtain ⟨h1, h2, h3⟩ := h
                subst h3
                have l1 : r4.length < r3.length := by
                  have hh := (List.dropWhile_sublist
                    (fun d => !(d == '"' || d == squote)) (l := r3)).length_le
                  rw [heq3] at hh
                  simp only [List.length_cons] at hh
                  omega
                have l2 : r3.length < r2.length := by
                  have hh := (List.dropWhile_sublist isWs (l := r2)).length_le
                  rw [heq2] at hh
                  simp only [List.length_cons] at hh
                  omega
                have l3 : r2.length < rest.length + 1 := by
                  have hh := le_trans
                    (List.dropWhile_sublist isWs
                      (l := rest.dropWhile identChar)).length_le
                    (List.dropWhile_sublist identChar (l := rest)).length_le
                  rw [heq1] at hh
                  simp only [List.length_cons] at hh
                  omega
                simp only [List.length_cons]
                omega
              · simp at h
            · simp at h
          · simp at h
        · simp at h
      · simp at h
    · simp at h

lemma attrScanF_fuel_mono :
    ∀ (f : Nat) (l : Chars), l.length ≤ f →
      attrScanF (f + 1) l = attrScanF f l := by
  intro f
  induction f with
  | zero =>
    intro l h
    have hl : l = [] := List.length_eq_zero.mp (Nat.le_zero.mp h)
    subst hl
    rfl
  | succ f ih =>
    intro l h
    cases l with
    | nil => rfl
    | cons c rest =>
      show attrScanF (f + 1 + 1) (c :: rest) = attrScanF (f + 1) (c :: rest)
      unfold attrScanF
      cases htry : tryAttrAt (c :: rest) with
      | some kvr =>
        obtain ⟨k0, v0, r0⟩ := kvr
        simp only [htry]
        congr 1
        refine ih r0 ?_
        have hlt := tryAttrAt_length _ _ _ _ htry
        simp only [List.length_cons] at hlt h
        omega
      | none =>
        simp only [htry]
        refine ih rest ?_
        simp only [List.length_cons] at h
        omega

lemma attrScanF_fuel_stable (l : Chars) (k : Nat) :
    attrScanF (l.length + k) l = attrScanF l.length l := by
  induction k with
  | zero => rfl
  | succ k ih =>
    rw [show l.length + (k + 1) = (l.length + k) + 1 from rfl,
      attrScanF_fuel_mono (l.length + k) l (by omega), ih]

end Axaml
